import Mathlib

/-!
Verification of the LogarithmicSpectrum histogram/interval core.

This file shallowly embeds `logspectra/histogram/interval.py` and
`logspectra/histogram/histogram.py` into Lean.  Numeric values are modelled
as rationals (`ℚ`), i.e. exact arithmetic; Python exceptions are modelled
with `Except`/`Option`, and the non-fatal `RuntimeWarning` of
`Histogram.validate_overlap` is modelled as a `Bool` flag returned next to
the result.  Numpy arrays are modelled as `List ℚ`; numpy's negative-index
semantics is modelled explicitly where the code relies on raw indexing.
-/

namespace LogSpectra

/-- Embeds `Interval` from `logspectra/histogram/interval.py`: a named pair
`(left, right)`. -/
structure Interval where
  left : ℚ
  right : ℚ
deriving DecidableEq

/-- Embeds `Interval.__bool__`: an interval is valid iff `left < right`. -/
def Interval.isValid (iv : Interval) : Bool :=
  decide (iv.left < iv.right)

/-- Embeds `Interval.length`: `right - left` if the interval is valid,
`0.0` otherwise. -/
def Interval.length (iv : Interval) : ℚ :=
  if iv.isValid then iv.right - iv.left else 0

/-- Embeds `Interval.contains`:
`self.left <= other.left and self.right >= other.right`. -/
def Interval.contains (iv other : Interval) : Bool :=
  decide (iv.left ≤ other.left ∧ other.right ≤ iv.right)

/-- Embeds `np.diff` on a one-dimensional array: successive differences. -/
def diff (l : List ℚ) : List ℚ :=
  List.zipWith (fun a b => b - a) l l.tail

/-- Embeds `is_increasing` from `logspectra/histogram/utils.py`:
`bool(np.all(np.diff(array) > 0))`. -/
def is_increasing (l : List ℚ) : Bool :=
  (diff l).all (fun d => decide (0 < d))

/-- Embeds the `Histogram` dataclass fields from
`logspectra/histogram/histogram.py`. -/
structure Histogram where
  edges : List ℚ
  values : List ℚ
deriving DecidableEq

/-- The three structural invariants checked by `Histogram.__post_init__`. -/
def Histogram.WF (h : Histogram) : Prop :=
  h.edges.length = h.values.length + 1 ∧ 2 ≤ h.edges.length ∧
    is_increasing h.edges = true

instance (h : Histogram) : Decidable h.WF :=
  decidable_of_iff
    (h.edges.length = h.values.length + 1 ∧ 2 ≤ h.edges.length ∧
      is_increasing h.edges = true) Iff.rfl

/-- Embeds the validating constructor `Histogram(edges, values)`:
`__post_init__` raises `ValueError` on a wrong length relationship, fewer
than two edges, or non-increasing edges (the `TypeError` branches for
non-array arguments are ruled out by the static types of the embedding). -/
def mkHistogram (edges values : List ℚ) : Except String Histogram :=
  if edges.length ≠ values.length + 1 then
    .error "edges should have exactly one more element than values"
  else if edges.length < 2 then
    .error "At least two edges are required to create a histogram"
  else if ¬ is_increasing edges then
    .error "edges need to be strictly increasing"
  else
    .ok ⟨edges, values⟩

/-- Embeds `Histogram.__len__`: the number of bins. -/
def Histogram.length (h : Histogram) : Nat :=
  h.values.length

/-- Embeds `Histogram.range`: `Interval(edges[0], edges[-1])`. -/
def Histogram.range (h : Histogram) : Interval :=
  ⟨h.edges.headD 0, h.edges.getLastD 0⟩

/-- Embeds `Histogram.widths`: `np.diff(edges)`. -/
def Histogram.widths (h : Histogram) : List ℚ :=
  diff h.edges

/-- Embeds numpy integer indexing `a[i]` on a one-dimensional array:
negative indices count from the end; an index outside `[-len, len)` raises
`IndexError` (modelled as `none`). -/
def npIndex (a : List ℚ) (i : ℤ) : Option ℚ :=
  let j : ℤ := if i < 0 then i + a.length else i
  if 0 ≤ j ∧ j < (a.length : ℤ) then some (a.getD j.toNat 0) else none

/-- Embeds `Histogram.width(i)`: `self.widths[i]` via numpy indexing. -/
def Histogram.width (h : Histogram) (i : ℤ) : Option ℚ :=
  npIndex h.widths i

/-- Embeds `Histogram.interval(i)`: raises `IndexError` unless
`0 <= i < len(self)`, then returns `Interval(edges[i], edges[i+1])`. -/
def Histogram.interval (h : Histogram) (i : ℤ) : Option Interval :=
  if 0 ≤ i ∧ i < (h.length : ℤ) then
    some ⟨h.edges.getD i.toNat 0, h.edges.getD (i.toNat + 1) 0⟩
  else
    none

/-- Embeds `Histogram.density(i)`: calls `interval(i)` (which range-checks
`i`), returns `0` if that interval is invalid, else
`values[i] / interval.length`. -/
def Histogram.density (h : Histogram) (i : ℤ) : Option ℚ :=
  match h.interval i with
  | none => none
  | some iv =>
    if ¬ iv.isValid then some 0
    else some (h.values.getD i.toNat 0 / iv.length)

/-- Embeds the in-range part of `np.interp`: walk the strictly increasing
breakpoints `xp` (with ordinates `fp`) and linearly interpolate in the
first segment whose right endpoint is `≥ x`. -/
def interpIn (x : ℚ) : List ℚ → List ℚ → ℚ
  | x0 :: x1 :: xs, f0 :: f1 :: fs =>
    if x ≤ x1 then f0 + (f1 - f0) * (x - x0) / (x1 - x0)
    else interpIn x (x1 :: xs) (f1 :: fs)
  | _, fs => fs.headD 0

/-- Embeds `np.interp(x, xp, fp, left=0, right=fp[-1])` as called by
`Histogram._rebin`: clamp to `0` below `xp[0]` and to `fp[-1]` above
`xp[-1]`, interpolate linearly in between. -/
def interp (xp fp : List ℚ) (x : ℚ) : ℚ :=
  if x < xp.headD 0 then 0
  else if xp.getLastD 0 < x then fp.getLastD 0
  else interpIn x xp fp

/-- Embeds `np.concatenate([[0], np.cumsum(self.values)])`: the cumulative
masses aligned with the edges. -/
def cumsum (values : List ℚ) : List ℚ :=
  List.scanl (· + ·) 0 values

/-- Embeds `Histogram._rebin`: validate the target edges are strictly
increasing, interpolate the cumulative-mass curve at the target edges,
difference, and construct (hence re-validate) the resulting histogram. -/
def Histogram._rebin (h : Histogram) (target : List ℚ) :
    Except String Histogram :=
  if ¬ is_increasing target then
    .error "array of edges need to be strictly increasing"
  else
    mkHistogram target
      (diff (target.map (fun x => interp h.edges (cumsum h.values) x)))

/-- Embeds `Histogram.validate_overlap`: returns `true` iff the non-fatal
`RuntimeWarning` is emitted, i.e. iff the target range does not contain
the histogram range. -/
def Histogram.validate_overlap (h : Histogram) (edges : List ℚ) : Bool :=
  ! (Interval.contains ⟨edges.headD 0, edges.getLastD 0⟩ h.range)

/-- The three accepted forms of `rebin`'s `target_bins` argument. -/
inductive RebinTarget where
  | interval : Interval → RebinTarget
  | array : List ℚ → RebinTarget
  | histogram : Histogram → RebinTarget

/-- Embeds `Histogram.rebin`: normalise the target to an edge array
(checking monotonicity for the raw-array form), run `validate_overlap`
(recording whether it warned), and dispatch to `_rebin`.  The result pairs
the warning flag with the new histogram. -/
def Histogram.rebin (h : Histogram) (t : RebinTarget) :
    Except String (Bool × Histogram) :=
  match t with
  | .interval iv =>
    (h._rebin [iv.left, iv.right]).map
      (fun h2 => (h.validate_overlap [iv.left, iv.right], h2))
  | .array a =>
    if ¬ is_increasing a then
      .error "array of edges need to be strictly increasing"
    else
      (h._rebin a).map (fun h2 => (h.validate_overlap a, h2))
  | .histogram g =>
    (h._rebin g.edges).map (fun h2 => (h.validate_overlap g.edges, h2))

/-- `f` agrees on `[u, v]` with the linear interpolation of its endpoint
values: the key invariant for reasoning about piecewise-linear curves. -/
def AffOn (f : ℚ → ℚ) (u v : ℚ) : Prop :=
  ∀ x, u ≤ x → x ≤ v → f x = f u + (f v - f u) * (x - u) / (v - u)

/-! ### Basic list lemmas -/

lemma headD_eq_getD (l : List ℚ) : l.headD 0 = l.getD 0 0 := by
  cases l <;> rfl

lemma getLastD_cons_zero (a b : ℚ) (t : List ℚ) :
    (a :: b :: t).getLastD 0 = (b :: t).getLastD 0 := by
  simp only [List.getLastD_cons]

lemma getLastD_indep (l : List ℚ) (hl : l ≠ []) (d1 d2 : ℚ) :
    l.getLastD d1 = l.getLastD d2 := by
  cases l with
  | nil => exact absurd rfl hl
  | cons c t => rw [List.getLastD_cons, List.getLastD_cons]

lemma getLastD_eq_getD (l : List ℚ) : l.getLastD 0 = l.getD (l.length - 1) 0 := by
  induction l with
  | nil => rfl
  | cons a t ih =>
    cases t with
    | nil => rfl
    | cons b t' =>
      rw [getLastD_cons_zero, ih]
      show (b :: t').getD ((b :: t').length - 1) 0 =
        (a :: b :: t').getD ((a :: b :: t').length - 1) 0
      simp [List.getD_cons_succ]

lemma chain_lt_getD {l : List ℚ} (hl : l.Chain' (· < ·)) {i j : ℕ}
    (hij : i < j) (hj : j < l.length) : l.getD i 0 < l.getD j 0 := by
  have hp : l.Pairwise (· < ·) := List.chain'_iff_pairwise.mp hl
  have hi : i < l.length := lt_trans hij hj
  rw [List.getD_eq_getElem _ _ hi, List.getD_eq_getElem _ _ hj]
  exact List.pairwise_iff_getElem.mp hp i j hi hj hij

lemma chain_le_getD {l : List ℚ} (hl : l.Chain' (· < ·)) {i j : ℕ}
    (hij : i ≤ j) (hj : j < l.length) : l.getD i 0 ≤ l.getD j 0 := by
  rcases lt_or_eq_of_le hij with h | h
  · exact le_of_lt (chain_lt_getD hl h hj)
  · rw [h]

lemma mem_getD {l : List ℚ} {x : ℚ} (hx : x ∈ l) :
    ∃ i, i < l.length ∧ l.getD i 0 = x := by
  obtain ⟨⟨i, hi⟩, h⟩ := List.mem_iff_get.mp hx
  exact ⟨i, hi, by rw [List.getD_eq_getElem _ _ hi]; simpa using h⟩

lemma headD_le_of_mem {l : List ℚ} (hl : l.Chain' (· < ·)) {x : ℚ}
    (hx : x ∈ l) : l.headD 0 ≤ x := by
  obtain ⟨i, hi, rfl⟩ := mem_getD hx
  rw [headD_eq_getD]
  exact chain_le_getD hl (Nat.zero_le i) hi

lemma le_getLastD_of_mem {l : List ℚ} (hl : l.Chain' (· < ·)) {x : ℚ}
    (hx : x ∈ l) : x ≤ l.getLastD 0 := by
  obtain ⟨i, hi, rfl⟩ := mem_getD hx
  rw [getLastD_eq_getD]
  exact chain_le_getD hl (by omega) (by omega)

lemma getD_mem (l : List ℚ) (i : ℕ) (hi : i < l.length) : l.getD i 0 ∈ l := by
  rw [List.getD_eq_getElem _ _ hi]
  exact List.getElem_mem hi

lemma headD_mem (l : List ℚ) (h : l ≠ []) : l.headD 0 ∈ l := by
  cases l with
  | nil => exact absurd rfl h
  | cons a t => simp

lemma lastD_mem (l : List ℚ) (h : l ≠ []) : l.getLastD 0 ∈ l := by
  rw [getLastD_eq_getD]
  exact getD_mem l _ (by
    have : 0 < l.length := List.length_pos.mpr h
    omega)

lemma headD_map (f : ℚ → ℚ) (l : List ℚ) (h : l ≠ []) :
    (l.map f).headD 0 = f (l.headD 0) := by
  cases l with
  | nil => exact absurd rfl h
  | cons a t => rfl

lemma getLastD_map_zero (f : ℚ → ℚ) (l : List ℚ) (h : l ≠ []) :
    (l.map f).getLastD 0 = f (l.getLastD 0) := by
  induction l with
  | nil => exact absurd rfl h
  | cons a t ih =>
    cases t with
    | nil => rfl
    | cons b t' =>
      rw [List.map_cons, List.map_cons, getLastD_cons_zero, getLastD_cons_zero,
        ← List.map_cons]
      exact ih (by simp)

lemma getD_map_zero (f : ℚ → ℚ) : ∀ (l : List ℚ) (i : ℕ), i < l.length →
    (l.map f).getD i 0 = f (l.getD i 0)
  | a :: t, 0, _ => rfl
  | a :: t, i + 1, h => by
    simpa using getD_map_zero f t i (by simpa using h)

/-! ### diff, cumsum and scanl lemmas -/

lemma diff_cons_cons (a b : ℚ) (l : List ℚ) :
    diff (a :: b :: l) = (b - a) :: diff (b :: l) := rfl

lemma diff_cons_of_ne_nil (a : ℚ) (L : List ℚ) (h : L ≠ []) :
    diff (a :: L) = (L.headD 0 - a) :: diff L := by
  cases L with
  | nil => exact absurd rfl h
  | cons c t => rfl

lemma length_diff (l : List ℚ) : (diff l).length = l.length - 1 := by
  cases l with
  | nil => rfl
  | cons a t => simp [diff]

lemma getD_diff : ∀ (l : List ℚ) (i : ℕ), i + 1 < l.length →
    (diff l).getD i 0 = l.getD (i + 1) 0 - l.getD i 0
  | a :: b :: t, 0, _ => rfl
  | a :: b :: t, i + 1, h => by
    rw [diff_cons_cons, List.getD_cons_succ, List.getD_cons_succ,
      List.getD_cons_succ]
    exact getD_diff (b :: t) i (by simpa using h)

lemma sum_diff (l : List ℚ) : (diff l).sum = l.getLastD 0 - l.headD 0 := by
  induction l with
  | nil => simp [diff]
  | cons a t ih =>
    cases t with
    | nil => simp [diff]
    | cons b t' =>
      rw [diff_cons_cons, List.sum_cons, ih, getLastD_cons_zero]
      show b - a + ((b :: t').getLastD 0 - b) = (b :: t').getLastD 0 - a
      ring

lemma headD_scanl (a : ℚ) (l : List ℚ) :
    (List.scanl (· + ·) a l).headD 0 = a := by
  cases l <;> rfl

lemma scanl_ne_nil (a : ℚ) (l : List ℚ) : List.scanl (· + ·) a l ≠ [] := by
  cases l <;> simp [List.scanl]

lemma scanl_cons_eq (a x : ℚ) (l : List ℚ) :
    List.scanl (· + ·) a (x :: l) = a :: List.scanl (· + ·) (a + x) l := rfl

lemma length_cumsum (v : List ℚ) : (cumsum v).length = v.length + 1 := by
  simp [cumsum, List.length_scanl]

lemma getLastD_scanl : ∀ (l : List ℚ) (a : ℚ),
    (List.scanl (· + ·) a l).getLastD 0 = a + l.sum
  | [], a => by simp [List.scanl]
  | x :: t, a => by
    rw [scanl_cons_eq, List.getLastD_cons,
      getLastD_indep _ (scanl_ne_nil _ _) a 0, getLastD_scanl t (a + x),
      List.sum_cons]
    ring

lemma headD_cumsum (v : List ℚ) : (cumsum v).headD 0 = 0 :=
  headD_scanl 0 v

lemma getLastD_cumsum (v : List ℚ) : (cumsum v).getLastD 0 = v.sum := by
  rw [cumsum, getLastD_scanl, zero_add]

lemma diff_scanl : ∀ (l : List ℚ) (a : ℚ), diff (List.scanl (· + ·) a l) = l
  | [], a => rfl
  | x :: t, a => by
    rw [scanl_cons_eq, diff_cons_of_ne_nil _ _ (scanl_ne_nil _ _),
      headD_scanl, diff_scanl t (a + x), add_sub_cancel_left]

lemma diff_cumsum (v : List ℚ) : diff (cumsum v) = v :=
  diff_scanl v 0

lemma scanl_diff : ∀ (rest : List ℚ) (x a : ℚ),
    List.scanl (· + ·) a (diff (x :: rest)) =
      (x :: rest).map (fun v => a + (v - x))
  | [], x, a => by simp [diff, List.scanl]
  | y :: t, x, a => by
    rw [diff_cons_cons, scanl_cons_eq, scanl_diff t y (a + (y - x))]
    have hmap : List.map (fun v => a + (y - x) + (v - y)) (y :: t) =
        List.map (fun v => a + (v - x)) (y :: t) :=
      List.map_congr_left (fun v _ => by ring)
    rw [hmap]
    conv_rhs => rw [List.map_cons]
    congr 1
    ring

lemma cumsum_diff (L : List ℚ) (hne : L ≠ []) (h0 : L.headD 0 = 0) :
    cumsum (diff L) = L := by
  obtain ⟨x, rest, rfl⟩ := List.exists_cons_of_ne_nil hne
  have hx : x = 0 := by simpa using h0
  rw [cumsum, scanl_diff]
  subst hx
  simp

/-! ### is_increasing and interpolation lemmas -/

lemma is_increasing_iff_chain (l : List ℚ) :
    is_increasing l = true ↔ l.Chain' (· < ·) := by
  induction l with
  | nil => simp [is_increasing, diff]
  | cons a t ih =>
    cases t with
    | nil => simp [is_increasing, diff]
    | cons b t' =>
      rw [is_increasing, diff_cons_cons, List.all_cons, List.chain'_cons]
      rw [is_increasing] at ih
      rw [Bool.and_eq_true, decide_eq_true_eq, sub_pos, ih]

lemma interpIn_node : ∀ (xp fp : List ℚ), xp.Chain' (· < ·) →
    xp.length = fp.length → ∀ i, i < xp.length →
    interpIn (xp.getD i 0) xp fp = fp.getD i 0 := by
  intro xp
  induction xp with
  | nil => intro fp _ _ i hi; simp at hi
  | cons x0 rest ih =>
    intro fp hch hlen i hi
    cases rest with
    | nil =>
      match fp, hlen with
      | [f0], _ =>
        cases i with
        | zero => rfl
        | succ k => simp at hi
    | cons x1 xs =>
      match fp, hlen with
      | f0 :: f1 :: fs, hlen =>
        obtain ⟨hx01, hch2⟩ := List.chain'_cons.mp hch
        match i with
        | 0 =>
          show (if x0 ≤ x1 then f0 + (f1 - f0) * (x0 - x0) / (x1 - x0)
            else interpIn x0 (x1 :: xs) (f1 :: fs)) = f0
          rw [if_pos (le_of_lt hx01)]
          simp
        | 1 =>
          show (if x1 ≤ x1 then f0 + (f1 - f0) * (x1 - x0) / (x1 - x0)
            else interpIn x1 (x1 :: xs) (f1 :: fs)) = f1
          rw [if_pos le_rfl, mul_div_assoc,
            div_self (sub_ne_zero.mpr (ne_of_gt hx01)), mul_one]
          ring
        | (k + 2) =>
          have hmem : k + 1 < (x1 :: xs).length := by
            simpa using Nat.lt_of_succ_lt_succ hi
          have hxk : x1 < (x1 :: xs).getD (k + 1) 0 := by
            have := chain_lt_getD hch2 (Nat.succ_pos k) hmem
            simpa using this
          show (if (x1 :: xs).getD (k + 1) 0 ≤ x1 then
              f0 + (f1 - f0) * ((x1 :: xs).getD (k + 1) 0 - x0) / (x1 - x0)
            else interpIn ((x1 :: xs).getD (k + 1) 0) (x1 :: xs) (f1 :: fs)) =
              (f1 :: fs).getD (k + 1) 0
          rw [if_neg (not_le.mpr hxk)]
          exact ih (f1 :: fs) hch2 (by simpa using hlen) (k + 1) hmem

lemma interp_node (xp fp : List ℚ) (hch : xp.Chain' (· < ·))
    (hlen : xp.length = fp.length) (i : ℕ) (hi : i < xp.length) :
    interp xp fp (xp.getD i 0) = fp.getD i 0 := by
  have h0 : xp.headD 0 ≤ xp.getD i 0 := by
    rw [headD_eq_getD]
    exact chain_le_getD hch (Nat.zero_le i) hi
  have h1 : xp.getD i 0 ≤ xp.getLastD 0 := by
    rw [getLastD_eq_getD]
    exact chain_le_getD hch (by omega) (by omega)
  rw [interp, if_neg (not_lt.mpr h0), if_neg (not_lt.mpr h1)]
  exact interpIn_node xp fp hch hlen i hi

lemma interp_below (xp fp : List ℚ) (hch : xp.Chain' (· < ·))
    (hlen : xp.length = fp.length) (hne : xp ≠ [])
    (hf0 : fp.headD 0 = 0) {x : ℚ} (hx : x ≤ xp.headD 0) :
    interp xp fp x = 0 := by
  rcases lt_or_eq_of_le hx with h | h
  · rw [interp, if_pos h]
  · have hpos : 0 < xp.length := List.length_pos.mpr hne
    rw [h, headD_eq_getD, interp_node xp fp hch hlen 0 hpos,
      ← headD_eq_getD, hf0]

lemma interp_above (xp fp : List ℚ) (hch : xp.Chain' (· < ·))
    (hlen : xp.length = fp.length) (hne : xp ≠ [])
    {x : ℚ} (hx : xp.getLastD 0 ≤ x) :
    interp xp fp x = fp.getLastD 0 := by
  have hpos : 0 < xp.length := List.length_pos.mpr hne
  rcases lt_or_eq_of_le hx with h | h
  · have hhead : xp.headD 0 ≤ xp.getLastD 0 := by
      rw [headD_eq_getD, getLastD_eq_getD]
      exact chain_le_getD hch (by omega) (by omega)
    rw [interp, if_neg (not_lt.mpr (le_trans hhead (le_of_lt h))), if_pos h]
  · rw [← h, getLastD_eq_getD, interp_node xp fp hch hlen _ (by omega),
      getLastD_eq_getD fp, hlen]

/-! ### rebin lemmas -/

lemma list_ext_getD (l1 l2 : List ℚ) (hlen : l1.length = l2.length)
    (h : ∀ i, i < l1.length → l1.getD i 0 = l2.getD i 0) : l1 = l2 := by
  apply List.ext_getElem hlen
  intro i h1 h2
  have := h i h1
  rwa [List.getD_eq_getElem _ _ h1, List.getD_eq_getElem _ _ h2] at this

lemma rebin_raw_ok (h : Histogram) (t : List ℚ) (ht : is_increasing t = true)
    (hlen : 2 ≤ t.length) :
    h._rebin t =
      .ok ⟨t, diff (t.map (fun x => interp h.edges (cumsum h.values) x))⟩ := by
  rw [Histogram._rebin, if_neg (by simp [ht]), mkHistogram]
  have hL : (diff (t.map (fun x => interp h.edges (cumsum h.values) x))).length
      = t.length - 1 := by
    rw [length_diff, List.length_map]
  rw [if_neg (by omega), if_neg (by omega), if_neg (by simp [ht])]

lemma rebin_array_ok (h : Histogram) (t : List ℚ)
    (ht : is_increasing t = true) (hlen : 2 ≤ t.length) :
    h.rebin (.array t) = .ok (h.validate_overlap t,
      ⟨t, diff (t.map (fun x => interp h.edges (cumsum h.values) x))⟩) := by
  rw [Histogram.rebin, if_neg (by simp [ht]), rebin_raw_ok h t ht hlen]
  rfl

lemma edges_chain {h : Histogram} (hWF : h.WF) :
    h.edges.Chain' (· < ·) :=
  (is_increasing_iff_chain h.edges).mp hWF.2.2

lemma edges_length_cumsum {h : Histogram} (hWF : h.WF) :
    h.edges.length = (cumsum h.values).length := by
  rw [length_cumsum, hWF.1]

lemma edges_ne_nil {h : Histogram} (hWF : h.WF) : h.edges ≠ [] := by
  have := hWF.2.1
  intro hc
  rw [hc] at this
  simp at this

/-- The rebinned values sum to the interpolated mass between the extreme
target edges. -/
lemma rebin_values_sum (h : Histogram) (t : List ℚ) (hne : t ≠ []) :
    (diff (t.map (fun x => interp h.edges (cumsum h.values) x))).sum =
      interp h.edges (cumsum h.values) (t.getLastD 0) -
        interp h.edges (cumsum h.values) (t.headD 0) := by
  rw [sum_diff, getLastD_map_zero _ _ hne, headD_map _ _ hne]

/-- Rebinning onto the histogram's own edges interpolates the cumulative
sums back exactly. -/
lemma map_interp_self (h : Histogram) (hWF : h.WF) :
    h.edges.map (fun x => interp h.edges (cumsum h.values) x) =
      cumsum h.values := by
  apply list_ext_getD
  · rw [List.length_map, edges_length_cumsum hWF]
  · intro i hi
    rw [List.length_map] at hi
    rw [getD_map_zero _ _ _ hi,
      interp_node h.edges (cumsum h.values) (edges_chain hWF)
        (edges_length_cumsum hWF) i hi]

lemma validate_overlap_self (h : Histogram) :
    h.validate_overlap h.edges = false := by
  simp [Histogram.validate_overlap, Interval.contains, Histogram.range]

lemma validate_overlap_eq (h : Histogram) (t : List ℚ) :
    (h.validate_overlap t = true) ↔
      ¬ (t.headD 0 ≤ h.edges.headD 0 ∧
        h.edges.getLastD 0 ≤ t.getLastD 0) := by
  simp only [Histogram.validate_overlap, Histogram.range, Interval.contains,
    Bool.not_eq_true', decide_eq_false_iff_not]

lemma widths_length {h : Histogram} (hWF : h.WF) :
    h.widths.length = h.length := by
  rw [Histogram.widths, length_diff, hWF.1]
  simp [Histogram.length]

/-! ### Piecewise-linear structure of the interpolated cumulative curve -/

lemma interpIn_segment : ∀ (e fp : List ℚ), e.Chain' (· < ·) →
    e.length = fp.length → ∀ i, i + 1 < e.length → ∀ x,
    e.getD i 0 ≤ x → x ≤ e.getD (i + 1) 0 →
    interpIn x e fp = fp.getD i 0 +
      (fp.getD (i + 1) 0 - fp.getD i 0) * (x - e.getD i 0) /
        (e.getD (i + 1) 0 - e.getD i 0) := by
  intro e
  induction e with
  | nil => intro fp _ _ i hi; simp at hi
  | cons a rest ih =>
    intro fp hch hlen i hi x hxl hxr
    cases rest with
    | nil => simp at hi
    | cons b t =>
      match fp, hlen with
      | f0 :: f1 :: fs, hlen =>
        obtain ⟨hab, hch2⟩ := List.chain'_cons.mp hch
        match i with
        | 0 =>
          have hxr' : x ≤ b := by simpa using hxr
          show (if x ≤ b then f0 + (f1 - f0) * (x - a) / (b - a)
            else interpIn x (b :: t) (f1 :: fs)) = _
          rw [if_pos hxr']
          rfl
        | j + 1 =>
          have hj1 : j + 1 < (b :: t).length := by
            simp only [List.length_cons] at hi ⊢
            omega
          have hjlen : j < (b :: t).length := by omega
          by_cases hxb : x ≤ b
          · have hbj : b ≤ (b :: t).getD j 0 := by
              have := chain_le_getD hch2 (Nat.zero_le j) hjlen
              simpa using this
            have hxl' : (b :: t).getD j 0 ≤ x := hxl
            have hxeq : x = b := le_antisymm hxb (le_trans hbj hxl')
            have hjeq : j = 0 := by
              by_contra hj
              have hlt : (b :: t).getD 0 0 < (b :: t).getD j 0 :=
                chain_lt_getD hch2 (Nat.pos_of_ne_zero hj) hjlen
              simp only [List.getD_cons_zero] at hlt
              have hbb : b < b := lt_of_lt_of_le hlt (hxeq ▸ hxl')
              exact lt_irrefl b hbb
            subst hjeq
            show (if x ≤ b then f0 + (f1 - f0) * (x - a) / (b - a)
              else interpIn x (b :: t) (f1 :: fs)) = _
            rw [if_pos hxb, hxeq]
            rw [mul_div_assoc, div_self (sub_ne_zero.mpr (ne_of_gt hab)),
              mul_one]
            have hzero : b - (a :: b :: t).getD (0 + 1) 0 = 0 := by simp
            rw [hzero, mul_zero, zero_div, add_zero]
            show f0 + (f1 - f0) = f1
            ring
          · show (if x ≤ b then f0 + (f1 - f0) * (x - a) / (b - a)
              else interpIn x (b :: t) (f1 :: fs)) = _
            rw [if_neg hxb]
            exact ih (f1 :: fs) hch2 (by simpa using hlen) j hj1 x hxl hxr

lemma interp_segment (e cs : List ℚ) (hch : e.Chain' (· < ·))
    (hlen : e.length = cs.length) (i : ℕ) (hi : i + 1 < e.length)
    {x : ℚ} (hxl : e.getD i 0 ≤ x) (hxr : x ≤ e.getD (i + 1) 0) :
    interp e cs x = cs.getD i 0 +
      (cs.getD (i + 1) 0 - cs.getD i 0) * (x - e.getD i 0) /
        (e.getD (i + 1) 0 - e.getD i 0) := by
  have h0 : e.headD 0 ≤ x := by
    rw [headD_eq_getD]
    exact le_trans (chain_le_getD hch (Nat.zero_le i) (by omega)) hxl
  have h1 : x ≤ e.getLastD 0 := by
    rw [getLastD_eq_getD]
    exact le_trans hxr (chain_le_getD hch (by omega) (by omega))
  rw [interp, if_neg (not_lt.mpr h0), if_neg (not_lt.mpr h1)]
  exact interpIn_segment e cs hch hlen i hi x hxl hxr

lemma affOn_of_segment (e cs : List ℚ) (hch : e.Chain' (· < ·))
    (hlen : e.length = cs.length) (i : ℕ) (hi : i + 1 < e.length)
    (u v : ℚ) (huv : u < v) (hu : e.getD i 0 ≤ u)
    (hv : v ≤ e.getD (i + 1) 0) : AffOn (interp e cs) u v := by
  intro x hux hxv
  have hei : e.getD i 0 < e.getD (i + 1) 0 :=
    chain_lt_getD hch (Nat.lt_succ_self i) hi
  have hW : e.getD (i + 1) 0 - e.getD i 0 ≠ 0 :=
    sub_ne_zero.mpr (ne_of_gt hei)
  have hvu : v - u ≠ 0 := sub_ne_zero.mpr (ne_of_gt huv)
  rw [interp_segment e cs hch hlen i hi (le_trans hu hux) (le_trans hxv hv),
    interp_segment e cs hch hlen i hi hu (le_trans (le_of_lt huv) hv),
    interp_segment e cs hch hlen i hi (le_trans hu (le_of_lt huv)) hv]
  field_simp
  ring

lemma find_segment : ∀ (e : List ℚ), e.Chain' (· < ·) → ∀ u v : ℚ, u < v →
    e.getD 0 0 ≤ u → v ≤ e.getD (e.length - 1) 0 →
    (∀ w ∈ e, w ≤ u ∨ v ≤ w) →
    ∃ i, i + 1 < e.length ∧ e.getD i 0 ≤ u ∧ v ≤ e.getD (i + 1) 0 := by
  intro e
  induction e with
  | nil =>
    intro _ u v huv h0 h1 _
    exfalso
    simp at h0 h1
    linarith
  | cons a rest ih =>
    intro hch u v huv h0 h1 hmem
    cases rest with
    | nil =>
      exfalso
      simp at h0 h1
      linarith
    | cons b t =>
      by_cases hvb : v ≤ b
      · exact ⟨0, by simp, h0, hvb⟩
      · have hbu : b ≤ u := by
          rcases hmem b (by simp) with h | h
          · exact h
          · exact absurd h hvb
        obtain ⟨hab, hch2⟩ := List.chain'_cons.mp hch
        obtain ⟨i, hi1, hi2, hi3⟩ := ih hch2 u v huv (by simpa using hbu)
          (by simpa using h1) (fun w hw => hmem w (List.mem_cons_of_mem a hw))
        exact ⟨i + 1, by simpa using hi1, hi2, hi3⟩

lemma affOn_of_gap (e cs : List ℚ) (hch : e.Chain' (· < ·))
    (hlen : e.length = cs.length) (hn2 : 2 ≤ e.length)
    (hcs0 : cs.headD 0 = 0) (u v : ℚ) (huv : u < v)
    (hgap : ∀ w ∈ e, w ≤ u ∨ v ≤ w) : AffOn (interp e cs) u v := by
  have henil : e ≠ [] := by
    intro hc
    rw [hc] at hn2
    simp at hn2
  by_cases hvE0 : v ≤ e.headD 0
  · intro x hux hxv
    rw [interp_below e cs hch hlen henil hcs0 (le_trans hxv hvE0),
      interp_below e cs hch hlen henil hcs0
        (le_trans (le_of_lt huv) hvE0),
      interp_below e cs hch hlen henil hcs0 hvE0]
    ring
  · by_cases huEL : e.getLastD 0 ≤ u
    · intro x hux hxv
      rw [interp_above e cs hch hlen henil (le_trans huEL hux),
        interp_above e cs hch hlen henil huEL,
        interp_above e cs hch hlen henil (le_trans huEL (le_of_lt huv))]
      ring
    · push_neg at hvE0 huEL
      have hE0u : e.headD 0 ≤ u := by
        rcases hgap _ (headD_mem e henil) with h | h
        · exact h
        · exact absurd h (not_le.mpr hvE0)
      have hELv : v ≤ e.getLastD 0 := by
        rcases hgap _ (lastD_mem e henil) with h | h
        · exact absurd h (not_le.mpr huEL)
        · exact h
      obtain ⟨i, hi1, hi2, hi3⟩ := find_segment e hch u v huv
        (headD_eq_getD e ▸ hE0u) (getLastD_eq_getD e ▸ hELv) hgap
      exact affOn_of_segment e cs hch hlen i hi1 u v huv hi2 hi3

lemma chain_affOn (g : ℚ → ℚ) (t : List ℚ)
    (hpair : ∀ i, i + 1 < t.length → AffOn g (t.getD i 0) (t.getD (i + 1) 0)) :
    t.Chain' (AffOn g) := by
  rw [List.chain'_iff_get]
  intro i hilen
  have hpi := hpair i (by omega)
  rw [List.getD_eq_getElem _ _ (by omega),
    List.getD_eq_getElem _ _ (by omega)] at hpi
  simpa using hpi

lemma interpIn_affOn_chain (g : ℚ → ℚ) : ∀ (t : List ℚ),
    t.Chain' (· < ·) → t.Chain' (AffOn g) → t ≠ [] → ∀ x,
    t.headD 0 ≤ x → x ≤ t.getLastD 0 → interpIn x t (t.map g) = g x := by
  intro t
  induction t with
  | nil => intro _ _ h; exact absurd rfl h
  | cons u rest ih =>
    intro hch haff _ x hxl hxr
    cases rest with
    | nil =>
      have hx : x = u :=
        le_antisymm (by simpa using hxr) (by simpa using hxl)
      rw [hx]
      rfl
    | cons v rest2 =>
      obtain ⟨huv, hch2⟩ := List.chain'_cons.mp hch
      obtain ⟨haffuv, haff2⟩ := List.chain'_cons.mp haff
      show (if x ≤ v then g u + (g v - g u) * (x - u) / (v - u)
        else interpIn x (v :: rest2) ((v :: rest2).map g)) = g x
      by_cases hxv : x ≤ v
      · rw [if_pos hxv]
        exact (haffuv x (by simpa using hxl) hxv).symm
      · rw [if_neg hxv]
        refine ih hch2 haff2 (by simp) x ?_ ?_
        · simpa using le_of_lt (not_le.mp hxv)
        · rw [← getLastD_cons_zero u v rest2]
          exact hxr

/-- The interpolated cumulative curve of a rebinned histogram agrees with
that of the original histogram everywhere, provided the new edges contain
all the original ones. -/
lemma interp_refine (h : Histogram) (hWF : h.WF) (t1 : List ℚ)
    (ht1 : t1.Chain' (· < ·)) (hsub : ∀ w ∈ h.edges, w ∈ t1) (x : ℚ) :
    interp t1 (t1.map (fun y => interp h.edges (cumsum h.values) y)) x =
      interp h.edges (cumsum h.values) x := by
  have hch := edges_chain hWF
  have hlen := edges_length_cumsum hWF
  have henil := edges_ne_nil hWF
  have ht1ne : t1 ≠ [] := by
    intro hc
    have := hsub _ (headD_mem _ henil)
    rw [hc] at this
    simp at this
  have hT0E0 : t1.headD 0 ≤ h.edges.headD 0 :=
    headD_le_of_mem ht1 (hsub _ (headD_mem _ henil))
  have hELTL : h.edges.getLastD 0 ≤ t1.getLastD 0 :=
    le_getLastD_of_mem ht1 (hsub _ (lastD_mem _ henil))
  by_cases hx1 : x < t1.headD 0
  · rw [interp, if_pos hx1,
      interp_below h.edges _ hch hlen henil (headD_cumsum _)
        (le_of_lt (lt_of_lt_of_le hx1 hT0E0))]
  · by_cases hx2 : t1.getLastD 0 < x
    · rw [interp, if_neg hx1, if_pos hx2, getLastD_map_zero _ t1 ht1ne,
        interp_above h.edges _ hch hlen henil hELTL,
        interp_above h.edges _ hch hlen henil
          (le_trans hELTL (le_of_lt hx2))]
    · rw [interp, if_neg hx1, if_neg hx2]
      refine interpIn_affOn_chain _ t1 ht1 ?_ ht1ne x (not_lt.mp hx1)
        (not_lt.mp hx2)
      refine chain_affOn _ t1 (fun i hi => ?_)
      have hui : t1.getD i 0 < t1.getD (i + 1) 0 :=
        chain_lt_getD ht1 (Nat.lt_succ_self i) hi
      refine affOn_of_gap h.edges (cumsum h.values) hch hlen hWF.2.1
        (headD_cumsum _) _ _ hui (fun w hw => ?_)
      obtain ⟨k, hk, rfl⟩ := mem_getD (hsub w hw)
      rcases le_or_lt k i with hki | hki
      · exact Or.inl (chain_le_getD ht1 hki (by omega))
      · exact Or.inr (chain_le_getD ht1 hki hk)

/-! ### Claim theorems -/

/-- C1: Mass preservation: for every valid histogram `h` and every strictly
increasing target edge sequence `t` with at least 2 edges whose overall
range contains `h.range`, rebinning succeeds and the sum of the rebinned
values equals the sum of the original values. -/
theorem C1_mass_preservation (h : Histogram) (t : List ℚ) (hWF : h.WF)
    (ht : is_increasing t = true) (hlen : 2 ≤ t.length)
    (hlo : t.headD 0 ≤ h.edges.headD 0)
    (hhi : h.edges.getLastD 0 ≤ t.getLastD 0) :
    ∃ w h2, h.rebin (.array t) = .ok (w, h2) ∧
      h2.values.sum = h.values.sum := by
  refine ⟨h.validate_overlap t, _, rebin_array_ok h t ht hlen, ?_⟩
  have hne : t ≠ [] := by
    intro hc
    rw [hc] at hlen
    simp at hlen
  show (diff (t.map _)).sum = _
  rw [rebin_values_sum h t hne,
    interp_below h.edges (cumsum h.values) (edges_chain hWF)
      (edges_length_cumsum hWF) (edges_ne_nil hWF) (headD_cumsum _) hlo,
    interp_above h.edges (cumsum h.values) (edges_chain hWF)
      (edges_length_cumsum hWF) (edges_ne_nil hWF) hhi,
    getLastD_cumsum, sub_zero]

theorem C1_mass_preservation_witness :
    ∃ w h2, (⟨[0, 1], [5]⟩ : Histogram).rebin (.array [-1, 2]) =
        .ok (w, h2) ∧
      h2.values.sum = (⟨[0, 1], [5]⟩ : Histogram).values.sum :=
  C1_mass_preservation ⟨[0, 1], [5]⟩ [-1, 2] (by with_unfolding_all decide)
    (by with_unfolding_all decide) (by decide)
    (by with_unfolding_all decide) (by with_unfolding_all decide)

/-- C2: Identity rebin: rebinning a valid histogram onto its own edges
returns exactly the original edges and values (and no range warning). -/
theorem C2_identity_rebin (h : Histogram) (hWF : h.WF) :
    h.rebin (.array h.edges) = .ok (false, ⟨h.edges, h.values⟩) := by
  rw [rebin_array_ok h h.edges hWF.2.2 hWF.2.1, map_interp_self h hWF,
    diff_cumsum, validate_overlap_self]

theorem C2_identity_rebin_witness :
    (⟨[0, 1], [5]⟩ : Histogram).rebin
        (.array (⟨[0, 1], [5]⟩ : Histogram).edges) =
      .ok (false, ⟨(⟨[0, 1], [5]⟩ : Histogram).edges,
        (⟨[0, 1], [5]⟩ : Histogram).values⟩) :=
  C2_identity_rebin ⟨[0, 1], [5]⟩ (by with_unfolding_all decide)

/-- C10: Rebin closure: for every valid histogram and every strictly
increasing target edge array with at least 2 elements, `rebin` succeeds and
returns a histogram satisfying all three structural invariants, whose edges
are the target and which has one value fewer than the target has edges. -/
theorem C10_rebin_closure (h : Histogram) (t : List ℚ) (_hWF : h.WF)
    (ht : is_increasing t = true) (hlen : 2 ≤ t.length) :
    ∃ w h2, h.rebin (.array t) = .ok (w, h2) ∧ h2.WF ∧ h2.edges = t ∧
      h2.values.length = t.length - 1 := by
  refine ⟨_, _, rebin_array_ok h t ht hlen, ?_, rfl, ?_⟩
  · refine ⟨?_, hlen, ht⟩
    show t.length = (diff (t.map _)).length + 1
    rw [length_diff, List.length_map]
    omega
  · show (diff (t.map _)).length = t.length - 1
    rw [length_diff, List.length_map]

theorem C10_rebin_closure_witness :
    ∃ w h2, (⟨[0, 1], [5]⟩ : Histogram).rebin (.array [0, 1, 2]) =
        .ok (w, h2) ∧ h2.WF ∧ h2.edges = [0, 1, 2] ∧
      h2.values.length = ([0, 1, 2] : List ℚ).length - 1 :=
  C10_rebin_closure ⟨[0, 1], [5]⟩ [0, 1, 2] (by with_unfolding_all decide)
    (by with_unfolding_all decide) (by decide)

/-- C3 counterexample: double rebin is not equivalent to direct rebin as
claimed.  For the histogram with edges `[0,1,2]` and values `[0,1]`, both
targets `t1 = [0,2]` and `t2 = [0,1,2]` are strictly increasing and their
ranges contain the histogram range, yet rebinning through `t1` first gives
values `[1/2, 1/2]` while rebinning directly onto `t2` gives `[0, 1]`. -/
theorem C3_counterexample :
    (⟨[0, 1, 2], [0, 1]⟩ : Histogram).WF ∧
    is_increasing [0, 2] = true ∧
    is_increasing [0, 1, 2] = true ∧
    (([0, 2] : List ℚ).headD 0 ≤
        (⟨[0, 1, 2], [0, 1]⟩ : Histogram).edges.headD 0 ∧
      (⟨[0, 1, 2], [0, 1]⟩ : Histogram).edges.getLastD 0 ≤
        ([0, 2] : List ℚ).getLastD 0) ∧
    (([0, 1, 2] : List ℚ).headD 0 ≤
        (⟨[0, 1, 2], [0, 1]⟩ : Histogram).edges.headD 0 ∧
      (⟨[0, 1, 2], [0, 1]⟩ : Histogram).edges.getLastD 0 ≤
        ([0, 1, 2] : List ℚ).getLastD 0) ∧
    (⟨[0, 1, 2], [0, 1]⟩ : Histogram).rebin (.array [0, 2]) =
      .ok (false, ⟨[0, 2], [1]⟩) ∧
    (⟨[0, 2], [1]⟩ : Histogram).rebin (.array [0, 1, 2]) =
      .ok (false, ⟨[0, 1, 2], [1/2, 1/2]⟩) ∧
    (⟨[0, 1, 2], [0, 1]⟩ : Histogram).rebin (.array [0, 1, 2]) =
      .ok (false, ⟨[0, 1, 2], [0, 1]⟩) ∧
    ([1/2, 1/2] : List ℚ) ≠ [0, 1] :=
  ⟨by with_unfolding_all decide, by with_unfolding_all rfl,
    by with_unfolding_all rfl, by with_unfolding_all decide,
    by with_unfolding_all decide, by with_unfolding_all rfl,
    by with_unfolding_all rfl, by with_unfolding_all rfl,
    by with_unfolding_all decide⟩

/-- C3 (amended): Double-rebin composition holds once the first target
refines the original binning: for every valid histogram `h`, every strictly
increasing `t1` containing every edge of `h` among its elements, and every
strictly increasing `t2` with at least 2 edges whose range contains
`h.range`, rebinning `h` to `t1` and then to `t2` yields exactly the same
values as rebinning `h` directly to `t2`. -/
theorem C3_double_rebin (h : Histogram) (t1 t2 : List ℚ) (hWF : h.WF)
    (ht1 : is_increasing t1 = true) (hsub : ∀ w ∈ h.edges, w ∈ t1)
    (ht2 : is_increasing t2 = true) (ht2len : 2 ≤ t2.length)
    (_hlo : t2.headD 0 ≤ h.edges.headD 0)
    (_hhi : h.edges.getLastD 0 ≤ t2.getLastD 0) :
    ∃ w1 h1 w12 h12 w2 h2,
      h.rebin (.array t1) = .ok (w1, h1) ∧
      h1.rebin (.array t2) = .ok (w12, h12) ∧
      h.rebin (.array t2) = .ok (w2, h2) ∧
      h12.values = h2.values := by
  have hch := edges_chain hWF
  have hlen := edges_length_cumsum hWF
  have henil := edges_ne_nil hWF
  have ht1ch : t1.Chain' (· < ·) := (is_increasing_iff_chain t1).mp ht1
  have ht1ne : t1 ≠ [] := by
    intro hc
    have := hsub _ (headD_mem _ henil)
    rw [hc] at this
    simp at this
  have hT0E0 : t1.headD 0 ≤ h.edges.headD 0 :=
    headD_le_of_mem ht1ch (hsub _ (headD_mem _ henil))
  have ht1len : 2 ≤ t1.length := by
    have hm1 := hsub _ (headD_mem _ henil)
    have hm2 := hsub _ (lastD_mem _ henil)
    have hne : h.edges.headD 0 < h.edges.getLastD 0 := by
      rw [headD_eq_getD, getLastD_eq_getD]
      have h2 := hWF.2.1
      exact chain_lt_getD hch (by omega) (by omega)
    cases t1 with
    | nil => simp at hm1
    | cons a s =>
      cases s with
      | nil =>
        have ha1 : h.edges.headD 0 = a := List.mem_singleton.mp hm1
        have ha2 : h.edges.getLastD 0 = a := List.mem_singleton.mp hm2
        rw [ha1, ha2] at hne
        exact absurd hne (lt_irrefl a)
      | cons b s2 => simp
  have e1 := rebin_array_ok h t1 ht1 ht1len
  have hg0 : (t1.map (fun x => interp h.edges (cumsum h.values) x)).headD 0
      = 0 := by
    rw [headD_map _ t1 ht1ne]
    exact interp_below h.edges _ hch hlen henil (headD_cumsum _) hT0E0
  have hcs1 : cumsum (diff
        (t1.map (fun x => interp h.edges (cumsum h.values) x))) =
      t1.map (fun x => interp h.edges (cumsum h.values) x) :=
    cumsum_diff _ (by simpa using ht1ne) hg0
  have e2 := rebin_array_ok
    ⟨t1, diff (t1.map (fun x => interp h.edges (cumsum h.values) x))⟩
    t2 ht2 ht2len
  have hmap : t2.map (fun x => interp
      (⟨t1, diff (t1.map (fun y => interp h.edges (cumsum h.values) y))⟩
        : Histogram).edges
      (cumsum (⟨t1, diff (t1.map
        (fun y => interp h.edges (cumsum h.values) y))⟩
        : Histogram).values) x) =
      t2.map (fun x => interp h.edges (cumsum h.values) x) := by
    refine List.map_congr_left (fun x _ => ?_)
    show interp t1 (cumsum (diff (t1.map
      (fun y => interp h.edges (cumsum h.values) y)))) x = _
    rw [hcs1]
    exact interp_refine h hWF t1 ht1ch hsub x
  rw [hmap] at e2
  exact ⟨_, _, _, _, _, _, e1, e2, rebin_array_ok h t2 ht2 ht2len, rfl⟩

/-- C3 amended witness: instantiated at the counterexample's histogram with
the refining target `t1 = [0,1,2]` and `t2 = [0,2]`. -/
theorem C3_double_rebin_witness :
    ∃ w1 h1 w12 h12 w2 h2,
      (⟨[0, 1, 2], [0, 1]⟩ : Histogram).rebin (.array [0, 1, 2]) =
        .ok (w1, h1) ∧
      h1.rebin (.array [0, 2]) = .ok (w12, h12) ∧
      (⟨[0, 1, 2], [0, 1]⟩ : Histogram).rebin (.array [0, 2]) =
        .ok (w2, h2) ∧
      h12.values = h2.values :=
  C3_double_rebin ⟨[0, 1, 2], [0, 1]⟩ [0, 1, 2] [0, 2]
    (by with_unfolding_all decide) (by with_unfolding_all rfl)
    (by with_unfolding_all decide) (by with_unfolding_all rfl)
    (by decide) (by with_unfolding_all decide)
    (by with_unfolding_all decide)

/-- C4: Out-of-range rebin clamping with non-fatal warning: for a valid
histogram and a strictly increasing target with at least 2 edges, `rebin`
still succeeds and its warning flag is set exactly when the target's
overall range does not fully contain the histogram's range; target edges
at or below `edges[0]` interpolate to cumulative mass `0` and target edges
at or above `edges[-1]` to the total mass; concretely,
`Histogram(edges=[0,10], values=[5]).rebin([5,20])` warns and returns
values `[5/2]`. -/
theorem C4_range_warning (h : Histogram) (t : List ℚ) (hWF : h.WF)
    (ht : is_increasing t = true) (hlen : 2 ≤ t.length) :
    (∃ w h2, h.rebin (.array t) = .ok (w, h2) ∧
      (w = true ↔ ¬ (t.headD 0 ≤ h.edges.headD 0 ∧
        h.edges.getLastD 0 ≤ t.getLastD 0))) ∧
    (∀ x, x ≤ h.edges.headD 0 →
      interp h.edges (cumsum h.values) x = 0) ∧
    (∀ x, h.edges.getLastD 0 ≤ x →
      interp h.edges (cumsum h.values) x = h.values.sum) ∧
    (⟨[0, 10], [5]⟩ : Histogram).rebin (.array [5, 20]) =
      .ok (true, ⟨[5, 20], [5/2]⟩) := by
  refine ⟨⟨h.validate_overlap t, _, rebin_array_ok h t ht hlen,
      validate_overlap_eq h t⟩, ?_, ?_, ?_⟩
  · intro x hx
    exact interp_below h.edges _ (edges_chain hWF)
      (edges_length_cumsum hWF) (edges_ne_nil hWF) (headD_cumsum _) hx
  · intro x hx
    rw [interp_above h.edges _ (edges_chain hWF) (edges_length_cumsum hWF)
      (edges_ne_nil hWF) hx, getLastD_cumsum]
  · with_unfolding_all rfl

theorem C4_range_warning_witness :
    (∃ w h2, (⟨[0, 10], [5]⟩ : Histogram).rebin (.array [5, 20]) =
        .ok (w, h2) ∧
      (w = true ↔ ¬ (([5, 20] : List ℚ).headD 0 ≤
          (⟨[0, 10], [5]⟩ : Histogram).edges.headD 0 ∧
        (⟨[0, 10], [5]⟩ : Histogram).edges.getLastD 0 ≤
          ([5, 20] : List ℚ).getLastD 0))) ∧
    (⟨[0, 10], [5]⟩ : Histogram).rebin (.array [5, 20]) =
      .ok (true, ⟨[5, 20], [5/2]⟩) :=
  have hfull := C4_range_warning ⟨[0, 10], [5]⟩ [5, 20]
    (by with_unfolding_all decide) (by with_unfolding_all decide)
    (by decide)
  ⟨hfull.1, hfull.2.2.2⟩

/-- C5: Concrete rebin scenario: `Histogram(edges=[0,2,5,10],
values=[1,2,1.5])` rebinned onto the single `Interval(0,10)` gives values
`[4.5]`, and rebinned onto edges `[0,5,10]` gives values `[3.0, 1.5]`. -/
theorem C5_concrete_rebin :
    (⟨[0, 2, 5, 10], [1, 2, 3/2]⟩ : Histogram).rebin (.interval ⟨0, 10⟩) =
      .ok (false, ⟨[0, 10], [9/2]⟩) ∧
    (⟨[0, 2, 5, 10], [1, 2, 3/2]⟩ : Histogram).rebin (.array [0, 5, 10]) =
      .ok (false, ⟨[0, 5, 10], [3, 3/2]⟩) :=
  ⟨by with_unfolding_all rfl, by with_unfolding_all rfl⟩

/-- C6: Constructor validation: `Histogram(edges, values)` fails with a
structural validation error if and only if the edge count is not one more
than the value count, there are fewer than two edges, or the edges are not
strictly increasing; on success the instance holds exactly the given edges
and values. -/
theorem C6_constructor_validation (e v : List ℚ) :
    ((∃ s, mkHistogram e v = .error s) ↔
      (e.length ≠ v.length + 1 ∨ e.length < 2 ∨ is_increasing e = false)) ∧
    (∀ h, mkHistogram e v = .ok h → h.edges = e ∧ h.values = v) := by
  by_cases h1 : e.length ≠ v.length + 1
  · rw [mkHistogram, if_pos h1]
    exact ⟨⟨fun _ => Or.inl h1, fun _ => ⟨_, rfl⟩⟩, fun h hc => by simp at hc⟩
  · by_cases h2 : e.length < 2
    · rw [mkHistogram, if_neg h1, if_pos h2]
      exact ⟨⟨fun _ => Or.inr (Or.inl h2), fun _ => ⟨_, rfl⟩⟩,
        fun h hc => by simp at hc⟩
    · by_cases h3 : is_increasing e = true
      · rw [mkHistogram, if_neg h1, if_neg h2, if_neg (by simp [h3])]
        refine ⟨⟨fun hc => ?_, fun hc => ?_⟩, fun h hc => ?_⟩
        · obtain ⟨s, hs⟩ := hc
          simp at hs
        · rcases hc with hc | hc | hc
          · exact absurd hc h1
          · exact absurd hc h2
          · rw [h3] at hc
            simp at hc
        · rw [Except.ok.injEq] at hc
          rw [← hc]
          exact ⟨rfl, rfl⟩
      · rw [mkHistogram, if_neg h1, if_neg h2, if_pos h3]
        exact ⟨⟨fun _ => Or.inr (Or.inr (by simpa using h3)),
          fun _ => ⟨_, rfl⟩⟩, fun h hc => by simp at hc⟩

theorem C6_constructor_validation_witness :
    ((∃ s, mkHistogram [0, 1, 2] [1, 2, 3] = .error s) ↔
      (([0, 1, 2] : List ℚ).length ≠ ([1, 2, 3] : List ℚ).length + 1 ∨
        ([0, 1, 2] : List ℚ).length < 2 ∨
        is_increasing [0, 1, 2] = false)) ∧
    (∀ h, mkHistogram [0, 1, 2] [1, 2, 3] = .ok h →
      h.edges = [0, 1, 2] ∧ h.values = [1, 2, 3]) :=
  C6_constructor_validation [0, 1, 2] [1, 2, 3]

/-- C7 counterexample: the claim that `width(i)` raises an index error for
every `i` outside `[0, n)` is false: for the valid one-bin histogram with
edges `[0, 1]`, the out-of-range index `-1` makes `width` return the last
bin width `1` (numpy negative indexing) instead of raising. -/
theorem C7_counterexample :
    (⟨[0, 1], [5]⟩ : Histogram).WF ∧
    ¬ (0 ≤ (-1 : ℤ) ∧ (-1 : ℤ) < ((⟨[0, 1], [5]⟩ : Histogram).length : ℤ)) ∧
    (⟨[0, 1], [5]⟩ : Histogram).width (-1) = some 1 :=
  ⟨by with_unfolding_all decide, by decide, by with_unfolding_all rfl⟩

/-- C7 (amended): for every valid histogram with `n` bins and every integer
`i` outside `[0, n)`, `interval(i)` and `density(i)` raise an index error;
`width(i)` raises exactly when `i < -n` or `i ≥ n`, while for
`-n ≤ i < 0` it returns the width of bin `n + i` (numpy negative
indexing). -/
theorem C7_index_errors (h : Histogram) (i : ℤ) (hWF : h.WF)
    (hout : ¬ (0 ≤ i ∧ i < (h.length : ℤ))) :
    h.interval i = none ∧ h.density i = none ∧
    ((i < -(h.length : ℤ) ∨ (h.length : ℤ) ≤ i) → h.width i = none) ∧
    ((-(h.length : ℤ) ≤ i ∧ i < 0) →
      h.width i = some (h.widths.getD (i + (h.length : ℤ)).toNat 0)) := by
  have hw : h.widths.length = h.length := widths_length hWF
  refine ⟨?_, ?_, ?_, ?_⟩
  · rw [Histogram.interval, if_neg hout]
  · simp [Histogram.density, Histogram.interval, hout]
  · intro hcase
    simp only [Histogram.width, npIndex]
    split_ifs with hneg hin hin
    · exact absurd hin (by omega)
    · rfl
    · exact absurd hin (by omega)
    · rfl
  · intro hcase
    obtain ⟨hge, hlt⟩ := hcase
    simp only [Histogram.width, npIndex]
    rw [if_pos hlt, if_pos (by omega : 0 ≤ i + (h.widths.length : ℤ) ∧
      i + (h.widths.length : ℤ) < (h.widths.length : ℤ)), hw]

/-- C7 amended witness: instantiated at the one-bin histogram with edges
`[0, 1]` and index `5`. -/
theorem C7_index_errors_witness :
    (⟨[0, 1], [5]⟩ : Histogram).interval 5 = none ∧
    (⟨[0, 1], [5]⟩ : Histogram).density 5 = none ∧
    ((5 : ℤ) < -(((⟨[0, 1], [5]⟩ : Histogram).length : ℤ)) ∨
      ((⟨[0, 1], [5]⟩ : Histogram).length : ℤ) ≤ 5 →
      (⟨[0, 1], [5]⟩ : Histogram).width 5 = none) ∧
    ((-(((⟨[0, 1], [5]⟩ : Histogram).length : ℤ)) ≤ 5 ∧ (5 : ℤ) < 0) →
      (⟨[0, 1], [5]⟩ : Histogram).width 5 =
        some ((⟨[0, 1], [5]⟩ : Histogram).widths.getD
          ((5 : ℤ) + ((⟨[0, 1], [5]⟩ : Histogram).length : ℤ)).toNat 0)) :=
  C7_index_errors ⟨[0, 1], [5]⟩ 5 (by with_unfolding_all decide) (by decide)

/-- C9: Density well-definedness under the constructor invariant: for every
valid histogram and every in-range bin index, the bin interval exists and
is strictly increasing (so the degenerate-bin zero branch of `density` is
unreachable), the bin width is strictly positive, and `density(i)` equals
`values[i] / (edges[i+1] - edges[i])`. -/
theorem C9_density_welldef (h : Histogram) (i : ℤ) (hWF : h.WF)
    (h0 : 0 ≤ i) (hn : i < (h.length : ℤ)) :
    h.interval i =
      some ⟨h.edges.getD i.toNat 0, h.edges.getD (i.toNat + 1) 0⟩ ∧
    h.edges.getD i.toNat 0 < h.edges.getD (i.toNat + 1) 0 ∧
    h.width i =
      some (h.edges.getD (i.toNat + 1) 0 - h.edges.getD i.toNat 0) ∧
    h.density i = some (h.values.getD i.toNat 0 /
      (h.edges.getD (i.toNat + 1) 0 - h.edges.getD i.toNat 0)) := by
  have hw : h.widths.length = h.length := widths_length hWF
  have hlen1 : i.toNat + 1 < h.edges.length := by
    rw [hWF.1]
    have : i.toNat < h.values.length := by
      have := hn
      simp only [Histogram.length] at this
      omega
    omega
  have hstrict : h.edges.getD i.toNat 0 < h.edges.getD (i.toNat + 1) 0 :=
    chain_lt_getD (edges_chain hWF) (Nat.lt_succ_self _) hlen1
  refine ⟨?_, hstrict, ?_, ?_⟩
  · rw [Histogram.interval, if_pos (And.intro h0 hn)]
  · simp only [Histogram.width, npIndex]
    rw [if_neg (not_lt.mpr h0),
      if_pos (show 0 ≤ i ∧ i < (h.widths.length : ℤ) from
        ⟨h0, by omega⟩)]
    show some ((diff h.edges).getD i.toNat 0) = _
    rw [getD_diff h.edges i.toNat hlen1]
  · have hstrict' : h.edges[i.toNat]?.getD 0 < h.edges[i.toNat + 1]?.getD 0 := by
      simpa using hstrict
    simp [Histogram.density, Histogram.interval, h0, hn,
      Interval.isValid, Interval.length, hstrict']

/-- C9 witness: instantiated at the one-bin histogram with edges `[0, 1]`
and index `0`. -/
theorem C9_density_welldef_witness :
    (⟨[0, 1], [5]⟩ : Histogram).interval 0 =
      some ⟨(⟨[0, 1], [5]⟩ : Histogram).edges.getD (0 : ℤ).toNat 0,
        (⟨[0, 1], [5]⟩ : Histogram).edges.getD ((0 : ℤ).toNat + 1) 0⟩ ∧
    (⟨[0, 1], [5]⟩ : Histogram).edges.getD (0 : ℤ).toNat 0 <
      (⟨[0, 1], [5]⟩ : Histogram).edges.getD ((0 : ℤ).toNat + 1) 0 ∧
    (⟨[0, 1], [5]⟩ : Histogram).width 0 =
      some ((⟨[0, 1], [5]⟩ : Histogram).edges.getD ((0 : ℤ).toNat + 1) 0 -
        (⟨[0, 1], [5]⟩ : Histogram).edges.getD (0 : ℤ).toNat 0) ∧
    (⟨[0, 1], [5]⟩ : Histogram).density 0 =
      some ((⟨[0, 1], [5]⟩ : Histogram).values.getD (0 : ℤ).toNat 0 /
        ((⟨[0, 1], [5]⟩ : Histogram).edges.getD ((0 : ℤ).toNat + 1) 0 -
          (⟨[0, 1], [5]⟩ : Histogram).edges.getD (0 : ℤ).toNat 0)) :=
  C9_density_welldef ⟨[0, 1], [5]⟩ 0 (by with_unfolding_all decide)
    (by decide) (by decide)

end LogSpectra
